import Mathlib

/-!
# Verification of the StockBERT encoding / lifecycle core (dumpmemory/unif)

Shallow embedding of the data-encoding pipeline of
`src/uf/apps/stockbert/stockbert_classifier.py` (`convert`, `_convert_X`,
`_convert_x`, `_convert_y`) and of the session-initialization state machine
of `src/uf/task/init.py` (`Initialization.run`), together with theorems
settling the spec's claims about them.

Numeric unit values are modelled as `Int` (their arithmetic is never used by
the encoding code: only lengths and zero-padding matter).
-/

namespace StockBert

/-- Truncation policy, mirroring the `truncate_method` strings `"LIFO"` /
`"FIFO"` accepted by the classifier. -/
inductive TruncMethod where
  | LIFO : TruncMethod
  | FIFO : TruncMethod
deriving DecidableEq, Repr

/-- A sample is an ordered sequence of units; each unit a vector of numbers. -/
abbrev Sample := List (List Int)

/-- Configuration slice of `StockBERTClassifier` relevant to `_convert_X`:
`max_seq_length`, `max_unit_length`, `truncate_method`. -/
structure Config where
  max_seq_length : Nat
  max_unit_length : Nat
  truncate_method : TruncMethod
deriving DecidableEq, Repr

/-- Modelled from the spec: `com.truncate_segments` is not under `src/` (only
its call site is).  Per the spec, excess units beyond the limit are removed
according to `truncate_method`: `"LIFO"` keeps the most recent units (drops
the earliest), `"FIFO"` keeps the earliest.  `_convert_X` always passes a
single segment, so the model truncates one segment to at most `limit` units.
When the segment already fits, nothing is removed. -/
def truncate_segment (m : TruncMethod) (limit : Nat) (seg : Sample) : Sample :=
  match m with
  | .FIFO => seg.take limit
  | .LIFO => seg.drop (seg.length - limit)

/-- Errors that can escape `_convert_X`.  `wrongInputFormat` is the
`ValueError` of lines 88-92, which names the offending sample and shows the
example format string; `unitLengthMismatch` is the bare `AssertionError` of
line 102 (`"max_unit_length must be equal to the input length of each time
spot."`), which names neither. -/
inductive ConvErr where
  | wrongInputFormat (sample : Sample) (cause : String) : ConvErr
  | unitLengthMismatch : ConvErr
deriving DecidableEq, Repr

/-- `_convert_x` (line 117-119): asserts `isinstance(x[0], list) and
isinstance(x[0][0], float)` then deep-copies.  In the typed embedding the
`isinstance` checks can only fail through the `IndexError` raised by `x[0]`
on an empty sample or by `x[0][0]` on an empty first unit; a deep copy of an
immutable value is the value itself (aliasing is treated separately in the
heap model below). -/
def convert_x (x : Sample) : Except String Sample :=
  match x with
  | [] => .error "IndexError"
  | u :: _ =>
    match u with
    | [] => .error "IndexError"
    | _ => .ok x

/-- First loop of `_convert_X` (lines 83-92): run `_convert_x` on every
sample, wrapping any failure into the `ValueError` that names the sample. -/
def tokenize_phase : List Sample → Except ConvErr (List Sample)
  | [] => .ok []
  | x :: rest =>
    match convert_x x with
    | .error e => .error (.wrongInputFormat x e)
    | .ok seg =>
      match tokenize_phase rest with
      | .error e => .error e
      | .ok segs => .ok (seg :: segs)

/-- Inner loop of the second phase (lines 101-104): check every surviving
unit has length `max_unit_length`, collecting the unit rows and a `1` mask
entry per unit. -/
def collect_units (mul : Nat) : Sample → Except ConvErr (List (List Int) × List Nat)
  | [] => .ok ([], [])
  | seg :: rest =>
    if seg.length = mul then
      match collect_units mul rest with
      | .error e => .error e
      | .ok (vs, ms) => .ok (seg :: vs, 1 :: ms)
    else
      .error .unitLengthMismatch

/-- Per-sample body of the second phase of `_convert_X` (lines 96-113):
truncate to `max_seq_length - 1` units, collect the unit rows and mask ones,
append the extra mask `1` (line 107) and pad with zero rows / mask zeros up
to `max_seq_length - 1` value slots (lines 108-110). -/
def encode_segments (cfg : Config) (segments : Sample) :
    Except ConvErr (List (List Int) × List Nat) :=
  let segs := truncate_segment cfg.truncate_method (cfg.max_seq_length - 1) segments
  match collect_units cfg.max_unit_length segs with
  | .error e => .error e
  | .ok (vs, ms) =>
    let pad := cfg.max_seq_length - 1 - vs.length
    .ok (vs ++ List.replicate pad (List.replicate cfg.max_unit_length 0),
         ms ++ 1 :: List.replicate pad 0)

/-- Second loop of `_convert_X` over the batch, accumulating the per-sample
values and masks into two parallel lists (lines 94-113). -/
def encode_phase (cfg : Config) : List Sample → Except ConvErr (List (List (List Int)) × List (List Nat))
  | [] => .ok ([], [])
  | segs :: rest =>
    match encode_segments cfg segs with
    | .error e => .error e
    | .ok (v, m) =>
      match encode_phase cfg rest with
      | .error e => .error e
      | .ok (vs, ms) => .ok (v :: vs, m :: ms)

/-- `_convert_X` (lines 80-115): tokenize every sample (wrapping failures),
then truncate, length-check, and pad each, returning the batch `input_values`
and `input_mask`. -/
def convert_X (cfg : Config) (X : List Sample) :
    Except ConvErr (List (List (List Int)) × List (List Nat)) :=
  match tokenize_phase X with
  | .error e => .error e
  | .ok segs => encode_phase cfg segs

/-- A well-formed sample for configuration `cfg`: non-empty, and every unit
has exactly `max_unit_length` entries (with `max_unit_length > 0`, so the
`isinstance` probe `x[0][0]` of `_convert_x` succeeds). -/
def WFSample (cfg : Config) (s : Sample) : Prop :=
  s ≠ [] ∧ 0 < cfg.max_unit_length ∧ ∀ u ∈ s, u.length = cfg.max_unit_length

instance (cfg : Config) (s : Sample) : Decidable (WFSample cfg s) := by
  unfold WFSample; infer_instance

/-- The value rows a well-formed sample of `k ≤ max_seq_length - 1` units
encodes to: the unit rows, then zero rows up to `max_seq_length - 1`. -/
def expected_values (cfg : Config) (s : Sample) : List (List Int) :=
  s ++ List.replicate (cfg.max_seq_length - 1 - s.length) (List.replicate cfg.max_unit_length 0)

/-- The mask a well-formed sample of `k ≤ max_seq_length - 1` units encodes
to: `k + 1` ones, then zeros up to total length `max_seq_length`. -/
def expected_mask (cfg : Config) (s : Sample) : List Nat :=
  List.replicate (s.length + 1) 1 ++ List.replicate (cfg.max_seq_length - 1 - s.length) 0

/-- `true` when a `ConvErr` is the `ValueError` that names the offending
sample and shows the example format (lines 88-92); `false` for the bare
`AssertionError` of line 102. -/
def ConvErr.namesSample : ConvErr → Bool
  | .wrongInputFormat _ _ => true
  | .unitLengthMismatch => false

/-! ## Label encoding: `_convert_y` (lines 121-151) -/

/-- A Python label value as used by the classifier: an int or a string
(strings modelled as their character sequences).  Values of different types
are not mutually orderable in Python 3 (`sorted` raises `TypeError`), which
is what the `try/except` of lines 133-138 guards against. -/
inductive PyLabel where
  | int : Int → PyLabel
  | str : List Char → PyLabel
deriving DecidableEq, Repr

def PyLabel.isInt : PyLabel → Bool
  | .int _ => true
  | .str _ => false

/-- Python string `<`: lexicographic over the characters. -/
def strLt : List Char → List Char → Bool
  | [], [] => false
  | [], _ :: _ => true
  | _ :: _, [] => false
  | a :: as, b :: bs => if a < b then true else if b < a then false else strLt as bs

/-- Same-type `≤` comparison; mixed-type comparison does not exist in
Python 3. -/
def pyLe : PyLabel → PyLabel → Bool
  | .int a, .int b => a ≤ b
  | .str a, .str b => !strLt b a
  | _, _ => false

/-- All elements mutually comparable: all of the same type as the head. -/
def sameTypeAll : List PyLabel → Bool
  | [] => true
  | x :: xs => xs.all (fun y => y.isInt = x.isInt)

/-- Modelled Python `sorted`: raises `TypeError` (here `none`) as soon as two
mutually incomparable elements are compared, which for a list drawn from a
set (distinct elements) happens exactly when the list mixes ints and strings
and has length at least two; otherwise returns the ascending sort. -/
def pySorted (l : List PyLabel) : Option (List PyLabel) :=
  if sameTypeAll l then some (l.insertionSort (fun a b => pyLe a b = true)) else none

def firstSeenDedupAux (seen : List PyLabel) : List PyLabel → List PyLabel
  | [] => []
  | x :: xs =>
    if x ∈ seen then firstSeenDedupAux seen xs
    else x :: firstSeenDedupAux (x :: seen) xs

/-- One concrete enumeration of Python `set(y)` (line 122) as a list:
first-seen order of `y`.  CPython's actual set iteration order is
implementation-defined (hash-based, run-randomized), so no claim about the
program may depend on this particular order: capacity claims rely only on
membership and cardinality of the result (order-independent), and claims
sensitive to the enumeration order are stated over `convert_y_enum`, which
quantifies over every duplicate-free enumeration of the distinct labels
(any permutation of `label_set y`). -/
def label_set (y : List PyLabel) : List PyLabel := firstSeenDedupAux [] y

/-- The vocabulary state owned by the classifier module: `label_size` (`None`
until set), `_id_to_label` (list, empty when unset) and `_label_to_id`
(insertion-ordered dict, modelled as an association list). -/
structure ClsState where
  label_size : Option Nat
  id_to_label : List PyLabel
  label_to_id : List (PyLabel × Nat)
deriving DecidableEq, Repr

/-- Python truthiness of `self.label_size` (line 125): `None` and `0` are
falsy. -/
def truthySize : Option Nat → Bool
  | none => false
  | some n => n ≠ 0

/-- Dict lookup on the association-list model of `_label_to_id`. -/
def lookupId : List (PyLabel × Nat) → PyLabel → Option Nat
  | [], _ => none
  | (k, v) :: rest, l => if k = l then some v else lookupId rest l

/-- `{label: index for index, label in enumerate(id_to_label)}` (line 142). -/
def enumerateFrom (i : Nat) : List PyLabel → List (PyLabel × Nat)
  | [] => []
  | l :: rest => (l, i) :: enumerateFrom (i + 1) rest

/-- The per-label loop of `_convert_y` (lines 144-150): look each label up,
appending unseen labels with the next free id while the vocabulary is below
`label_size` (`sz`), failing otherwise. -/
def assignIds (sz : Nat) : List PyLabel → List (PyLabel × Nat) → List PyLabel →
    Except String (List Nat × List (PyLabel × Nat) × List PyLabel)
  | [], m, itl => .ok ([], m, itl)
  | l :: rest, m, itl =>
    match lookupId m l with
    | some i =>
      match assignIds sz rest m itl with
      | .error e => .error e
      | .ok (ids, m', itl') => .ok (i :: ids, m', itl')
    | none =>
      if m.length < sz then
        match assignIds sz rest (m ++ [(l, m.length)]) (itl ++ [l]) with
        | .error e => .error e
        | .ok (ids, m', itl') => .ok (m.length :: ids, m', itl')
      else .error "Number of unique labels exceeds label_size."

/-- The id order a first build uses: best-effort `sorted` of the label set
(lines 131-138), keeping the set order when `sorted` raises. -/
def vocabOrder (lset : List PyLabel) : List PyLabel :=
  match pySorted lset with
  | some s => s
  | none => lset

/-- The `label_size` in effect after lines 124-128: kept when truthy,
otherwise set to the batch's distinct-label count. -/
def convert_y_sz (st : ClsState) (lset : List PyLabel) : Nat :=
  if truthySize st.label_size then st.label_size.getD 0 else lset.length

/-- The `_id_to_label` in effect after lines 130-138: kept when non-empty,
otherwise built best-effort-sorted from the label set. -/
def convert_y_itl (st : ClsState) (lset : List PyLabel) : List PyLabel :=
  if st.id_to_label ≠ [] then st.id_to_label else vocabOrder lset

/-- The `_label_to_id` in effect after lines 140-142: kept when non-empty,
otherwise enumerated from `_id_to_label`. -/
def convert_y_m (st : ClsState) (itl : List PyLabel) : List (PyLabel × Nat) :=
  if st.label_to_id ≠ [] then st.label_to_id else enumerateFrom 0 itl

/-- `_convert_y` (lines 121-151): capacity check / inference, best-effort
sorted vocabulary build on first use, then the per-label id assignment loop.
On success returns the ids and the updated module state (Python mutates
`self`; failures raise, so the `Except` error drops the partial state, which
no claim observes). -/
def convert_y (st : ClsState) (y : List PyLabel) :
    Except String (List Nat × ClsState) :=
  let lset := label_set y
  if truthySize st.label_size ∧ st.label_size.getD 0 < lset.length then
    .error "Number of unique ys exceeds label_size."
  else
    let sz := convert_y_sz st lset
    let itl := convert_y_itl st lset
    let m := convert_y_m st itl
    match assignIds sz y m itl with
    | .error e => .error e
    | .ok (ids, m', itl') => .ok (ids, ⟨some sz, itl', m'⟩)

/-- `_convert_y` with the enumeration of `set(y)` made explicit: `e` stands
for `list(label_set)` as CPython would enumerate it.  CPython guarantees
only the membership and cardinality of a set, not its iteration order, so
order-sensitive facts about `_convert_y` are stated for every `e` that is a
permutation of the distinct labels; `convert_y` itself is the instance at
the concrete first-seen enumeration (`convert_y_enum_label_set`). -/
def convert_y_enum (e : List PyLabel) (st : ClsState) (y : List PyLabel) :
    Except String (List Nat × ClsState) :=
  if truthySize st.label_size ∧ st.label_size.getD 0 < e.length then
    .error "Number of unique ys exceeds label_size."
  else
    let sz := convert_y_sz st e
    let itl := convert_y_itl st e
    let m := convert_y_m st itl
    match assignIds sz y m itl with
    | .error err => .error err
    | .ok (ids, m', itl') => .ok (ids, ⟨some sz, itl', m'⟩)

/-! ## Session initialization: `Initialization.run` (src/uf/task/init.py) -/

/-- Which initialization work a `run` call performed. -/
inductive InitAction where
  | fullInit : InitAction
  | incrInit (vars : List String) : InitAction
  | noop : InitAction
deriving DecidableEq, Repr

/-- The module fields `Initialization.run` reads and writes:
`_session_built`, `global_variables`, `_inited_vars`, `_session_mode`. -/
structure ModuleState where
  session_built : Bool
  global_variables : List String
  inited_vars : List String
  session_mode : Option String
deriving DecidableEq, Repr

/-- Modelled from the spec: `Task._init_session` is not under `src/`.  Per
the spec it performs a full initialization (loading the checkpoint unless
`ignore_checkpoint`), after which the session is built and every global
parameter has a concrete value. -/
def init_session (st : ModuleState) : ModuleState :=
  { st with session_built := true, inited_vars := st.global_variables }

/-- Modelled from the spec: `Task._init_variables` is not under `src/`.  Per
the spec it initializes exactly the given parameters, marking them as having
values while leaving previously initialized parameters untouched. -/
def init_variables (st : ModuleState) (vars : List String) : ModuleState :=
  { st with inited_vars := st.inited_vars ++ vars }

/-- The list `variables` built by lines 20-23: global variables not yet in
`_inited_vars`, in graph order. -/
def uninitialized_variables (st : ModuleState) : List String :=
  st.global_variables.filter (fun v => decide (v ∉ st.inited_vars))

/-- `Initialization.run` (lines 8-31): build the graph (placeholder
declaration and the parallel forward pass touch none of the fields modelled
here; per the spec, re-declaring the same graph introduces no new
parameters), then fully initialize when `reinit_all` is set or the session
was never built, else initialize exactly the not-yet-initialized globals (a
logged no-op when there are none); finally set `_session_mode = "infer"`.
The returned `InitAction` records the initialization work performed. -/
def Initialization.run (st : ModuleState) (reinit_all : Bool) (_ignore_checkpoint : Bool) :
    ModuleState × InitAction :=
  if reinit_all ∨ st.session_built = false then
    ({ init_session st with session_mode := some "infer" }, .fullInit)
  else
    let vs := uninitialized_variables st
    if vs ≠ [] then
      ({ init_variables st vs with session_mode := some "infer" }, .incrInit vs)
    else
      ({ st with session_mode := some "infer" }, .noop)

/-! ## Heap model of `_convert_X` for the frame/no-mutation claim

The caller's `X_tokenized` holds references to sample objects; `_convert_x`
deep-copies (line 119) and `com.truncate_segments` pops the list it is given
in place.  The heap is a list of sample cells addressed by index; the pure
phases above are replayed against it. -/

abbrev Store := List Sample
abbrev Ref := Nat

def heap_get (σ : Store) (r : Ref) : Sample := σ.getD r []

/-- `copy.deepcopy` (line 119): allocate a fresh cell holding a copy of the
referenced sample; no existing cell is written. -/
def deepcopy_alloc (σ : Store) (r : Ref) : Store × Ref :=
  (σ ++ [heap_get σ r], σ.length)

/-- In-place `com.truncate_segments` (line 100) on cell `r`: only the outer
unit list of that one cell is popped; inner unit vectors are never written. -/
def truncate_at (cfg : Config) (σ : Store) (r : Ref) : Store :=
  σ.set r (truncate_segment cfg.truncate_method (cfg.max_seq_length - 1) (heap_get σ r))

/-- Heap-level first loop of `_convert_X` (lines 83-92): check and deep-copy
each sample; on failure the heap mutations made so far persist, matching the
Python state at the raised exception. -/
def tokenize_phase_heap : Store → List Ref → Store × Except ConvErr (List Ref)
  | σ, [] => (σ, .ok [])
  | σ, r :: rs =>
    match convert_x (heap_get σ r) with
    | .error e => (σ, .error (.wrongInputFormat (heap_get σ r) e))
    | .ok _ =>
      match tokenize_phase_heap (deepcopy_alloc σ r).1 rs with
      | (σ', .error e) => (σ', .error e)
      | (σ', .ok rs') => (σ', .ok ((deepcopy_alloc σ r).2 :: rs'))

/-- Heap-level second loop of `_convert_X` (lines 96-113): truncate each
copied segment cell in place, then length-check, collect and pad. -/
def encode_phase_heap (cfg : Config) : Store → List Ref →
    Store × Except ConvErr (List (List (List Int)) × List (List Nat))
  | σ, [] => (σ, .ok ([], []))
  | σ, r :: rs =>
    let σ1 := truncate_at cfg σ r
    match collect_units cfg.max_unit_length (heap_get σ1 r) with
    | .error e => (σ1, .error e)
    | .ok (vs, ms) =>
      let pad := cfg.max_seq_length - 1 - vs.length
      match encode_phase_heap cfg σ1 rs with
      | (σ', .error e) => (σ', .error e)
      | (σ', .ok (vss, mss)) =>
        (σ', .ok ((vs ++ List.replicate pad (List.replicate cfg.max_unit_length 0)) :: vss,
                  (ms ++ 1 :: List.replicate pad 0) :: mss))

/-- Heap-level `_convert_X`: the caller's batch is the list of references
`refs`; the final heap records every mutation the call performed, whether it
succeeded or raised. -/
def convert_X_heap (cfg : Config) (σ : Store) (refs : List Ref) :
    Store × Except ConvErr (List (List (List Int)) × List (List Nat)) :=
  match tokenize_phase_heap σ refs with
  | (σ', .error e) => (σ', .error e)
  | (σ', .ok rs) => encode_phase_heap cfg σ' rs

/-! ## Batch-size adjustment in `convert` (lines 54-66) -/

/-- The module fields read and written by lines 65-66 of `convert`:
`batch_size` and `_gpu_ids` (whose length is the worker count). -/
structure BatchState where
  batch_size : Nat
  gpu_ids : List Nat
deriving DecidableEq, Repr

/-- Lines 65-66: `if n_inputs < self.batch_size: self.batch_size =
max(n_inputs, len(self._gpu_ids))`. -/
def update_batch_size (st : BatchState) (n_inputs : Nat) : BatchState :=
  if n_inputs < st.batch_size then
    { st with batch_size := max n_inputs st.gpu_ids.length }
  else st

/-- The `X_tokenized` path of `convert` (lines 58-66): encode the batch with
`_convert_X`, set `n_inputs = len(input_values)`, and shrink `batch_size`
when fewer inputs than `batch_size` arrived. -/
def convert_tokenized (cfg : Config) (st : BatchState) (X : List Sample) :
    Except ConvErr ((List (List (List Int)) × List (List Nat)) × BatchState) :=
  match convert_X cfg X with
  | .error e => .error e
  | .ok (vs, ms) => .ok ((vs, ms), update_batch_size st vs.length)

/-- Well-formedness of the vocabulary state, holding initially (empty
vocabulary, any or no preset `label_size`) and preserved by every successful
`_convert_y` call: the two vocabulary containers stay in sync, the map never
exceeds a truthy `label_size`, and a falsy `label_size` (unset, or `0`)
coexists only with an empty vocabulary. -/
def VocabWF (st : ClsState) : Prop :=
  st.label_to_id.length = st.id_to_label.length ∧
  (truthySize st.label_size = true → st.label_to_id.length ≤ st.label_size.getD 0) ∧
  (truthySize st.label_size = false → st.label_to_id = [] ∧ st.id_to_label = [])

instance {ε α : Type} [DecidableEq ε] [DecidableEq α] : DecidableEq (Except ε α) := fun x y =>
  match x, y with
  | .error a, .error b =>
    if h : a = b then .isTrue (by rw [h]) else .isFalse (by intro he; cases he; exact h rfl)
  | .ok a, .ok b =>
    if h : a = b then .isTrue (by rw [h]) else .isFalse (by intro he; cases he; exact h rfl)
  | .error _, .ok _ => .isFalse (by intro he; cases he)
  | .ok _, .error _ => .isFalse (by intro he; cases he)

theorem truncate_segment_of_le (m : TruncMethod) (limit : Nat) (seg : Sample)
    (h : seg.length ≤ limit) : truncate_segment m limit seg = seg := by
  cases m with
  | FIFO => exact List.take_of_length_le h
  | LIFO =>
    show seg.drop (seg.length - limit) = seg
    rw [Nat.sub_eq_zero_of_le h, List.drop_zero]

theorem collect_units_ok (mul : Nat) (s : Sample)
    (h : ∀ u ∈ s, u.length = mul) :
    collect_units mul s = .ok (s, List.replicate s.length 1) := by
  induction s with
  | nil => rfl
  | cons u rest ih =>
    have hu : u.length = mul := h u (by simp)
    have hrest : ∀ v ∈ rest, v.length = mul := fun v hv => h v (by simp [hv])
    simp [collect_units, hu, ih hrest, List.replicate_succ]

theorem convert_x_ok (cfg : Config) (s : Sample) (h : WFSample cfg s) :
    convert_x s = .ok s := by
  obtain ⟨hne, hmul, hall⟩ := h
  cases s with
  | nil => exact absurd rfl hne
  | cons u rest =>
    cases hu : u with
    | nil =>
      have := hall u (by simp)
      rw [hu] at this
      simp at this
      omega
    | cons a us => simp [convert_x]

theorem expected_mask_eq (cfg : Config) (s : Sample) :
    expected_mask cfg s =
      List.replicate s.length 1 ++ 1 :: List.replicate (cfg.max_seq_length - 1 - s.length) 0 := by
  unfold expected_mask
  rw [List.replicate_succ']
  simp

theorem encode_segments_wf (cfg : Config) (s : Sample) (h : WFSample cfg s)
    (hk : s.length ≤ cfg.max_seq_length - 1) :
    encode_segments cfg s = .ok (expected_values cfg s, expected_mask cfg s) := by
  simp [encode_segments, truncate_segment_of_le _ _ _ hk, collect_units_ok _ _ h.2.2,
    expected_values, expected_mask_eq]

/-- On a batch of well-formed, non-overflowing samples `_convert_X` succeeds
and produces exactly the expected values and masks, sample by sample. -/
theorem convert_X_all_wf (cfg : Config) (X : List Sample)
    (h : ∀ s ∈ X, WFSample cfg s ∧ s.length ≤ cfg.max_seq_length - 1) :
    convert_X cfg X = .ok (X.map (expected_values cfg), X.map (expected_mask cfg)) := by
  induction X with
  | nil => rfl
  | cons s rest ih =>
    have hs := h s (by simp)
    have hrest : ∀ t ∈ rest, WFSample cfg t ∧ t.length ≤ cfg.max_seq_length - 1 :=
      fun t ht => h t (by simp [ht])
    have ihr := ih hrest
    unfold convert_X at ihr ⊢
    rw [show tokenize_phase (s :: rest) =
        match convert_x s with
        | .error e => .error (.wrongInputFormat s e)
        | .ok seg =>
          match tokenize_phase rest with
          | .error e => .error e
          | .ok segs => .ok (seg :: segs) from rfl,
      convert_x_ok cfg s hs.1]
    cases htok : tokenize_phase rest with
    | error e => rw [htok] at ihr; simp at ihr
    | ok segs =>
      rw [htok] at ihr
      simp only at ihr ⊢
      rw [show encode_phase cfg (s :: segs) =
          match encode_segments cfg s with
          | .error e => .error e
          | .ok (v, m) =>
            match encode_phase cfg segs with
            | .error e => .error e
            | .ok (vs, ms) => .ok (v :: vs, m :: ms) from rfl,
        encode_segments_wf cfg s hs.1 hs.2, ihr]
      simp

theorem getD_replicate_lt (n i a d : Nat) (h : i < n) :
    (List.replicate n a).getD i d = a := by
  induction n generalizing i with
  | zero => omega
  | succ m ih =>
    cases i with
    | zero => simp [List.replicate_succ]
    | succ j =>
      simp only [List.replicate_succ, List.getD_cons_succ]
      exact ih j (by omega)

theorem expected_mask_getD (cfg : Config) (s : Sample) (i : Nat) :
    (expected_mask cfg s).getD i 0 = if i < s.length + 1 then 1 else 0 := by
  unfold expected_mask
  rcases Nat.lt_or_ge i (s.length + 1) with hlt | hge
  · rw [if_pos hlt, List.getD_append _ _ _ _ (by simpa using hlt)]
    exact getD_replicate_lt _ _ _ _ hlt
  · rw [if_neg (by omega)]
    rcases Nat.lt_or_ge i (List.replicate (s.length + 1) (1 : Nat) ++
        List.replicate (cfg.max_seq_length - 1 - s.length) (0 : Nat)).length with hin | hout
    · rw [List.getD_eq_getElem _ _ hin, List.getElem_append_right (by simpa using hge)]
      simp
    · exact List.getD_eq_default _ _ hout

/-- C1: on a batch of well-formed samples with `k ≤ max_seq_length - 1`
units each, `_convert_X` succeeds and each sample encodes to exactly `k + 1`
mask ones followed by `max_seq_length - 1 - k` zeros (total `max_seq_length`)
and to its `k` unit rows followed by `max_seq_length - 1 - k` zero rows of
length `max_unit_length` (see `expected_mask` / `expected_values`). -/
theorem convert_X_mask_values_shape (cfg : Config) (X : List Sample)
    (h : ∀ s ∈ X, WFSample cfg s ∧ s.length ≤ cfg.max_seq_length - 1)
    (hmsl : 1 ≤ cfg.max_seq_length) :
    convert_X cfg X = .ok (X.map (expected_values cfg), X.map (expected_mask cfg)) ∧
    ∀ s ∈ X, (expected_mask cfg s).length = cfg.max_seq_length ∧
      (expected_values cfg s).length = cfg.max_seq_length - 1 := by
  refine ⟨convert_X_all_wf cfg X h, fun s hs => ?_⟩
  have hk := (h s hs).2
  constructor
  · simp only [expected_mask, List.length_append, List.length_replicate]
    omega
  · simp only [expected_values, List.length_append, List.length_replicate]
    omega

theorem convert_X_mask_values_shape_witness :
    convert_X ⟨4, 2, .LIFO⟩ [[[1, 1], [2, 2]]] =
      .ok ([[[1, 1], [2, 2], [0, 0]]], [[1, 1, 1, 0]]) ∧
    ([1, 1, 1, 0] : List Nat).length = 4 := by
  have h := convert_X_mask_values_shape ⟨4, 2, .LIFO⟩ [[[1, 1], [2, 2]]]
    (by decide) (by decide)
  exact ⟨by rw [h.1]; rfl, rfl⟩

/-- C2 counterexample: with `max_seq_length = 4`, `max_unit_length = 2`,
LIFO, the sample `[[1,1],[2,2],[3,3]]` has 3 units, which already fits the
`max_seq_length - 1 = 3` value slots, so no truncation happens; the encoding
is NOT the spec's `values [[2,2],[3,3],[0,0]]`, `mask [1,1,1,0]`. -/
theorem scenario_lifo_counterexample :
    convert_X ⟨4, 2, .LIFO⟩ [[[1, 1], [2, 2], [3, 3]]] ≠
      .ok ([[[2, 2], [3, 3], [0, 0]]], [[1, 1, 1, 0]]) := by decide

/-- C2 amended: for `max_seq_length = 4`, `max_unit_length = 2`, LIFO, the
single sample `[[1,1],[2,2],[3,3]]` fits without truncation and encodes to
values `[[1,1],[2,2],[3,3]]` and mask `[1,1,1,1]`. -/
theorem scenario_lifo_amended :
    convert_X ⟨4, 2, .LIFO⟩ [[[1, 1], [2, 2], [3, 3]]] =
      .ok ([[[1, 1], [2, 2], [3, 3]]], [[1, 1, 1, 1]]) := by decide

/-- C3 counterexample: a sample with a single unit under
`max_seq_length = 4` gets mask `[1, 1, 0, 0]`: the last mask position (index
`max_seq_length - 1 = 3`) is `0`, not `1`. -/
theorem reserved_mask_last_counterexample :
    convert_X ⟨4, 2, .LIFO⟩ [[[1, 1]]] =
      .ok ([[[1, 1], [0, 0], [0, 0]]], [[1, 1, 0, 0]]) ∧
    ([1, 1, 0, 0] : List Nat).getD 3 0 = 0 := by decide

/-- C3 amended: the extra reserved mask `1` of line 107 is appended directly
after the `k` unit positions, i.e. at index `k`, before the zero padding; so
the mask position at index `k` is always `1`, and the LAST mask position
(index `max_seq_length - 1`) is `1` exactly when the sample fills all
`max_seq_length - 1` value slots. -/
theorem reserved_mask_position (cfg : Config) (s : Sample)
    (h : WFSample cfg s) (hk : s.length ≤ cfg.max_seq_length - 1) :
    convert_X cfg [s] = .ok ([expected_values cfg s], [expected_mask cfg s]) ∧
    (expected_mask cfg s).getD s.length 0 = 1 ∧
    ((expected_mask cfg s).getD (cfg.max_seq_length - 1) 0 = 1 ↔
      s.length = cfg.max_seq_length - 1) := by
  refine ⟨?_, ?_, ?_⟩
  · have hall : ∀ t ∈ [s], WFSample cfg t ∧ t.length ≤ cfg.max_seq_length - 1 := by
      intro t ht
      rw [List.mem_singleton] at ht
      subst ht
      exact ⟨h, hk⟩
    simpa using convert_X_all_wf cfg [s] hall
  · rw [expected_mask_getD, if_pos (by omega)]
  · rw [expected_mask_getD]
    rcases Nat.lt_or_ge (cfg.max_seq_length - 1) (s.length + 1) with hlt | hge
    · rw [if_pos hlt]
      constructor
      · intro _; omega
      · intro _; rfl
    · rw [if_neg (by omega)]
      constructor
      · intro h0; omega
      · intro he; omega

theorem reserved_mask_position_witness :
    convert_X ⟨4, 2, .LIFO⟩ [[[5, 5]]] =
      .ok ([[[5, 5], [0, 0], [0, 0]]], [[1, 1, 0, 0]]) ∧
    ([1, 1, 0, 0] : List Nat).getD 1 0 = 1 := by
  have h := reserved_mask_position ⟨4, 2, .LIFO⟩ [[5, 5]] (by decide) (by decide)
  exact ⟨by rw [h.1]; rfl, rfl⟩

theorem tokenize_phase_length (X : List Sample) (segs : List Sample)
    (h : tokenize_phase X = .ok segs) : segs.length = X.length := by
  induction X generalizing segs with
  | nil => cases h; rfl
  | cons s rest ih =>
    unfold tokenize_phase at h
    cases hcx : convert_x s with
    | error e => rw [hcx] at h; cases h
    | ok seg =>
      rw [hcx] at h
      cases htok : tokenize_phase rest with
      | error e => rw [htok] at h; cases h
      | ok segs' =>
        rw [htok] at h
        cases h
        simp [ih segs' htok]

theorem encode_phase_length (cfg : Config) (segs : List Sample)
    (vs : List (List (List Int))) (ms : List (List Nat))
    (h : encode_phase cfg segs = .ok (vs, ms)) : vs.length = segs.length := by
  induction segs generalizing vs ms with
  | nil => cases h; rfl
  | cons s rest ih =>
    unfold encode_phase at h
    cases he : encode_segments cfg s with
    | error e => rw [he] at h; cases h
    | ok p =>
      rw [he] at h
      cases hr : encode_phase cfg rest with
      | error e => rw [hr] at h; simp at h
      | ok q =>
        rw [hr] at h
        simp only at h
        cases h
        simp [ih q.1 q.2 (by rw [hr])]

theorem convert_X_length (cfg : Config) (X : List Sample)
    (vs : List (List (List Int))) (ms : List (List Nat))
    (h : convert_X cfg X = .ok (vs, ms)) : vs.length = X.length := by
  unfold convert_X at h
  cases htok : tokenize_phase X with
  | error e => rw [htok] at h; cases h
  | ok segs =>
    rw [htok] at h
    rw [encode_phase_length cfg segs vs ms h, tokenize_phase_length X segs htok]

/-- C9: when `convert` (the `X_tokenized` path) succeeds, the realized input
count is the number of samples; if it is smaller than the configured
`batch_size`, the module's `batch_size` shrinks to
`max(n_inputs, len(gpu_ids))`, otherwise `batch_size` (and the whole module
slice) is left unchanged. -/
theorem convert_shrinks_batch_size (cfg : Config) (st : BatchState) (X : List Sample)
    (r : (List (List (List Int)) × List (List Nat)) × BatchState)
    (h : convert_tokenized cfg st X = .ok r) :
    (X.length < st.batch_size →
      r.2.batch_size = max X.length st.gpu_ids.length ∧ r.2.gpu_ids = st.gpu_ids) ∧
    (st.batch_size ≤ X.length → r.2 = st) := by
  unfold convert_tokenized at h
  cases hcX : convert_X cfg X with
  | error e => rw [hcX] at h; cases h
  | ok p =>
    rw [hcX] at h
    simp only at h
    cases h
    have hlen : p.1.length = X.length := convert_X_length cfg X p.1 p.2 (by rw [hcX])
    constructor
    · intro hlt
      simp [update_batch_size, hlen, hlt]
    · intro hge
      simp [update_batch_size, hlen, Nat.not_lt.mpr hge]

theorem convert_shrinks_batch_size_witness :
    (1 < 8 →
      (⟨2, [7, 9]⟩ : BatchState).batch_size = max 1 2 ∧
        (⟨2, [7, 9]⟩ : BatchState).gpu_ids = [7, 9]) ∧
    (8 ≤ 1 → (⟨2, [7, 9]⟩ : BatchState) = ⟨8, [7, 9]⟩) := by
  have h := convert_shrinks_batch_size ⟨4, 2, .LIFO⟩ ⟨8, [7, 9]⟩ [[[1, 1]]]
    (([[[1, 1], [0, 0], [0, 0]]], [[1, 1, 0, 0]]), ⟨2, [7, 9]⟩) (by decide)
  exact h

theorem run_fields (st : ModuleState) (ic : Bool) (h : st.session_built = true) :
    (Initialization.run st false ic).1.session_built = true ∧
    (Initialization.run st false ic).1.global_variables = st.global_variables ∧
    (Initialization.run st false ic).1.inited_vars =
      st.inited_vars ++ uninitialized_variables st ∧
    (Initialization.run st false ic).1.session_mode = some "infer" ∧
    (Initialization.run st false ic).2 =
      (if uninitialized_variables st = [] then .noop
       else .incrInit (uninitialized_variables st)) := by
  by_cases hd : uninitialized_variables st = [] <;>
    simp [Initialization.run, init_variables, h, hd]

theorem run_second_noop (st : ModuleState) (ic : Bool) (h : st.session_built = true) :
    (Initialization.run (Initialization.run st false ic).1 false ic).2 = .noop := by
  obtain ⟨h1, h2, h3, _, _⟩ := run_fields st ic h
  have hempty : uninitialized_variables (Initialization.run st false ic).1 = [] := by
    rw [uninitialized_variables, h2, h3, List.filter_eq_nil_iff]
    intro v hv
    simp only [decide_eq_true_eq, not_not]
    rcases Classical.em (v ∈ st.inited_vars) with hin | hout
    · exact List.mem_append_left _ hin
    · refine List.mem_append_right _ ?_
      rw [uninitialized_variables, List.mem_filter]
      exact ⟨hv, by simpa using hout⟩
  have h5 := (run_fields (Initialization.run st false ic).1 ic h1).2.2.2.2
  rw [h5, if_pos hempty]

/-- C6: with the session already built and `reinit_all = False`,
`Initialization.run` initializes exactly the set difference
`global_variables − _inited_vars`; when the difference is empty it performs
no initialization (informational no-op, still success) and `_inited_vars`
is unchanged; in both cases `_session_mode` becomes `"infer"`, and an
immediately repeated call does no initialization work. -/
theorem incremental_init (st : ModuleState) (ic : Bool) (h : st.session_built = true) :
    (∀ v, v ∈ uninitialized_variables st ↔ v ∈ st.global_variables ∧ v ∉ st.inited_vars) ∧
    (uninitialized_variables st ≠ [] →
      (Initialization.run st false ic).2 = .incrInit (uninitialized_variables st) ∧
      (Initialization.run st false ic).1.inited_vars =
        st.inited_vars ++ uninitialized_variables st) ∧
    (uninitialized_variables st = [] →
      (Initialization.run st false ic).2 = .noop ∧
      (Initialization.run st false ic).1.inited_vars = st.inited_vars) ∧
    (Initialization.run st false ic).1.session_mode = some "infer" ∧
    (Initialization.run (Initialization.run st false ic).1 false ic).2 = .noop := by
  obtain ⟨h1, h2, h3, h4, h5⟩ := run_fields st ic h
  refine ⟨?_, ?_, ?_, h4, run_second_noop st ic h⟩
  · intro v
    simp [uninitialized_variables, List.mem_filter]
  · intro hd
    rw [h5, if_neg hd]
    exact ⟨rfl, h3⟩
  · intro hd
    rw [h5, if_pos hd, h3, hd]
    simp

theorem incremental_init_witness :
    (Initialization.run ⟨true, ["a", "b"], ["a"], none⟩ false false).2 =
      .incrInit ["b"] ∧
    (Initialization.run
        (Initialization.run ⟨true, ["a", "b"], ["a"], none⟩ false false).1
        false false).2 = .noop := by
  have h := incremental_init ⟨true, ["a", "b"], ["a"], none⟩ false rfl
  refine ⟨?_, h.2.2.2.2⟩
  have h1 := (h.2.1 (by decide)).1
  rw [h1]
  rfl

theorem tokenize_phase_all_ok (X : List Sample) (h : ∀ s ∈ X, convert_x s = .ok s) :
    tokenize_phase X = .ok X := by
  induction X with
  | nil => rfl
  | cons s rest ih =>
    unfold tokenize_phase
    rw [h s (by simp), ih (fun t ht => h t (by simp [ht]))]

theorem collect_units_err (mul : Nat) (s : Sample)
    (h : ∃ u ∈ s, u.length ≠ mul) :
    collect_units mul s = .error .unitLengthMismatch := by
  induction s with
  | nil => simp at h
  | cons u rest ih =>
    unfold collect_units
    by_cases hu : u.length = mul
    · rw [if_pos hu]
      have : ∃ v ∈ rest, v.length ≠ mul := by
        obtain ⟨v, hv, hlen⟩ := h
        rcases List.mem_cons.mp hv with rfl | hm
        · exact absurd hu hlen
        · exact ⟨v, hm, hlen⟩
      rw [ih this]
    · rw [if_neg hu]

theorem encode_segments_err (cfg : Config) (s : Sample)
    (h : ∃ u ∈ truncate_segment cfg.truncate_method (cfg.max_seq_length - 1) s,
      u.length ≠ cfg.max_unit_length) :
    encode_segments cfg s = .error .unitLengthMismatch := by
  simp [encode_segments, collect_units_err _ _ h]

theorem encode_phase_err (cfg : Config) (segs : List Sample)
    (h : ∃ s ∈ segs, ∃ u ∈ truncate_segment cfg.truncate_method (cfg.max_seq_length - 1) s,
      u.length ≠ cfg.max_unit_length) :
    encode_phase cfg segs = .error .unitLengthMismatch := by
  induction segs with
  | nil => simp at h
  | cons s rest ih =>
    unfold encode_phase
    by_cases hs : ∃ u ∈ truncate_segment cfg.truncate_method (cfg.max_seq_length - 1) s,
        u.length ≠ cfg.max_unit_length
    · rw [encode_segments_err cfg s hs]
    · push_neg at hs
      have hok : encode_segments cfg s =
          .ok (truncate_segment cfg.truncate_method (cfg.max_seq_length - 1) s ++
                List.replicate (cfg.max_seq_length - 1 -
                  (truncate_segment cfg.truncate_method (cfg.max_seq_length - 1) s).length)
                  (List.replicate cfg.max_unit_length 0),
              List.replicate
                  (truncate_segment cfg.truncate_method (cfg.max_seq_length - 1) s).length 1 ++
                1 :: List.replicate (cfg.max_seq_length - 1 -
                  (truncate_segment cfg.truncate_method (cfg.max_seq_length - 1) s).length) 0) := by
        simp [encode_segments, collect_units_ok cfg.max_unit_length _ hs]
      rw [hok]
      have hrest : ∃ t ∈ rest,
          ∃ u ∈ truncate_segment cfg.truncate_method (cfg.max_seq_length - 1) t,
            u.length ≠ cfg.max_unit_length := by
        obtain ⟨t, ht, hu⟩ := h
        rcases List.mem_cons.mp ht with rfl | hm
        · obtain ⟨u, hu1, hu2⟩ := hu
          exact absurd (hs u hu1) hu2
        · exact ⟨t, hm, hu⟩
      rw [ih hrest]

/-- C7 counterexample: the sample `[[1,1],[2,2,2]]` (second unit has length
3 ≠ `max_unit_length` = 2) passes `_convert_x` (whose probe only inspects
`x[0]` and `x[0][0]`), so the failure comes from the bare `assert` of line
102, which does NOT name the offending sample and does not show the example
format — it is not the wrapped `ValueError` of lines 88-92. -/
theorem unit_length_error_counterexample :
    convert_X ⟨4, 2, .LIFO⟩ [[[1, 1], [2, 2, 2]]] = .error .unitLengthMismatch ∧
    ConvErr.namesSample .unitLengthMismatch = false := by decide

/-- C7 amended: a sample whose post-truncation units include one of length
`≠ max_unit_length` makes the whole `_convert_X` call fail — no partial
batch is returned — but with the bare `AssertionError` of line 102
(`unitLengthMismatch`), which names neither the sample nor the expected
format; only exceptions raised inside `_convert_x` are wrapped into the
`ValueError` that names the sample (provided every sample passed
`_convert_x`, as the length assert runs in the second loop). -/
theorem unit_length_mismatch_fails (cfg : Config) (X : List Sample)
    (hok : ∀ s ∈ X, convert_x s = .ok s) (s : Sample) (hs : s ∈ X)
    (hbad : ∃ u ∈ truncate_segment cfg.truncate_method (cfg.max_seq_length - 1) s,
      u.length ≠ cfg.max_unit_length) :
    convert_X cfg X = .error .unitLengthMismatch ∧
    ConvErr.namesSample .unitLengthMismatch = false := by
  refine ⟨?_, rfl⟩
  unfold convert_X
  rw [tokenize_phase_all_ok X hok]
  exact encode_phase_err cfg X ⟨s, hs, hbad⟩

theorem unit_length_mismatch_fails_witness :
    convert_X ⟨4, 2, .LIFO⟩ [[[3, 3], [4]]] = .error .unitLengthMismatch := by
  exact (unit_length_mismatch_fails ⟨4, 2, .LIFO⟩ [[[3, 3], [4]]]
    (by decide) [[3, 3], [4]] (by decide) (by decide)).1

theorem heap_get_append_lt (σ ext : Store) (i : Nat) (hi : i < σ.length) :
    heap_get (σ ++ ext) i = heap_get σ i := by
  unfold heap_get
  exact List.getD_append σ ext [] i hi

theorem heap_get_set_ne (σ : Store) (r i : Nat) (v : Sample) (h : i ≠ r) :
    heap_get (σ.set r v) i = heap_get σ i := by
  induction σ generalizing r i with
  | nil => simp [heap_get]
  | cons a rest ih =>
    cases r with
    | zero =>
      cases i with
      | zero => omega
      | succ j => simp [heap_get, List.set]
    | succ r' =>
      cases i with
      | zero => simp [heap_get, List.set]
      | succ j =>
        simp only [heap_get, List.set, List.getD_cons_succ]
        exact ih r' j (by omega)

theorem tokenize_heap_appends (rs : List Ref) (σ : Store) :
    ∃ ext, (tokenize_phase_heap σ rs).1 = σ ++ ext := by
  induction rs generalizing σ with
  | nil => exact ⟨[], by simp [tokenize_phase_heap]⟩
  | cons r rest ih =>
    unfold tokenize_phase_heap
    cases hcx : convert_x (heap_get σ r) with
    | error e => exact ⟨[], by simp⟩
    | ok seg =>
      obtain ⟨ext, hext⟩ := ih (deepcopy_alloc σ r).1
      cases htok : tokenize_phase_heap (deepcopy_alloc σ r).1 rest with
      | mk σ' res =>
        rw [htok] at hext
        refine ⟨[heap_get σ r] ++ ext, ?_⟩
        cases res with
        | error e => simpa [deepcopy_alloc, List.append_assoc] using hext
        | ok rs' => simpa [deepcopy_alloc, List.append_assoc] using hext

theorem tokenize_heap_fresh (rs : List Ref) (σ : Store) (out : List Ref)
    (h : (tokenize_phase_heap σ rs).2 = .ok out) : ∀ x ∈ out, σ.length ≤ x := by
  induction rs generalizing σ out with
  | nil =>
    simp only [tokenize_phase_heap] at h
    cases h
    simp
  | cons r rest ih =>
    unfold tokenize_phase_heap at h
    cases hcx : convert_x (heap_get σ r) with
    | error e => rw [hcx] at h; cases h
    | ok seg =>
      rw [hcx] at h
      cases htok : tokenize_phase_heap (deepcopy_alloc σ r).1 rest with
      | mk σ' res =>
        rw [htok] at h
        cases res with
        | error e => cases h
        | ok rs' =>
          simp only at h
          cases h
          intro x hx
          rcases List.mem_cons.mp hx with rfl | hm
          · simp [deepcopy_alloc]
          · have := ih (deepcopy_alloc σ r).1 rs' (by rw [htok]) x hm
            simp only [deepcopy_alloc, List.length_append, List.length_singleton] at this
            omega

theorem encode_heap_frame (cfg : Config) (rs : List Ref) (σ : Store) (i : Nat)
    (h : ∀ r ∈ rs, i ≠ r) :
    heap_get (encode_phase_heap cfg σ rs).1 i = heap_get σ i := by
  induction rs generalizing σ with
  | nil => rfl
  | cons r rest ih =>
    have hir : i ≠ r := h r (by simp)
    have hset : heap_get (truncate_at cfg σ r) i = heap_get σ i :=
      heap_get_set_ne σ r i _ hir
    unfold encode_phase_heap
    cases hcu : collect_units cfg.max_unit_length (heap_get (truncate_at cfg σ r) r) with
    | error e =>
      simp only [hcu]
      exact hset
    | ok p =>
      cases henc : encode_phase_heap cfg (truncate_at cfg σ r) rest with
      | mk σ' res =>
        have hrest : heap_get σ' i = heap_get (truncate_at cfg σ r) i := by
          have := ih (truncate_at cfg σ r) (fun t ht => h t (by simp [ht]))
          rwa [henc] at this
        cases res with
        | error e => simpa [hcu, henc] using hrest.trans hset
        | ok q => simpa [hcu, henc] using hrest.trans hset

/-- C10: `_convert_X` never mutates the caller's samples.  In the heap
model, every cell that existed before the call (in particular every sample
of `X_tokenized`) holds exactly the same value after the call, whether the
call succeeded or raised: `_convert_x` deep-copies each sample into a fresh
cell (line 119) and the in-place truncation of line 100 only writes those
fresh cells. -/
theorem convert_X_no_mutation (cfg : Config) (σ : Store) (refs : List Ref) (i : Nat)
    (hi : i < σ.length) :
    heap_get (convert_X_heap cfg σ refs).1 i = heap_get σ i := by
  unfold convert_X_heap
  cases htok : tokenize_phase_heap σ refs with
  | mk σ' res =>
    obtain ⟨ext, hext⟩ := tokenize_heap_appends refs σ
    rw [htok] at hext
    simp only at hext
    subst hext
    cases res with
    | error e => exact heap_get_append_lt σ ext i hi
    | ok rs =>
      have hfresh : ∀ x ∈ rs, σ.length ≤ x :=
        tokenize_heap_fresh refs σ rs (by rw [htok])
      have hne : ∀ r ∈ rs, i ≠ r := fun r hr => by
        have := hfresh r hr
        omega
      simp only
      rw [encode_heap_frame cfg rs (σ ++ ext) i hne]
      exact heap_get_append_lt σ ext i hi

theorem lookupId_append_left (m m2 : List (PyLabel × Nat)) (k : PyLabel) (v : Nat)
    (h : lookupId m k = some v) : lookupId (m ++ m2) k = some v := by
  induction m with
  | nil => cases h
  | cons p rest ih =>
    obtain ⟨a, b⟩ := p
    rw [List.cons_append]
    show (if a = k then some b else lookupId (rest ++ m2) k) = some v
    rw [show lookupId ((a, b) :: rest) k =
        if a = k then some b else lookupId rest k from rfl] at h
    by_cases ha : a = k
    · rwa [if_pos ha] at h ⊢
    · rw [if_neg ha] at h ⊢
      exact ih h

theorem lookupId_append_self (m : List (PyLabel × Nat)) (l : PyLabel) (i : Nat)
    (h : lookupId m l = none) : lookupId (m ++ [(l, i)]) l = some i := by
  induction m with
  | nil => simp [lookupId]
  | cons p rest ih =>
    obtain ⟨a, b⟩ := p
    rw [List.cons_append]
    show (if a = l then some b else lookupId (rest ++ [(l, i)]) l) = some i
    rw [show lookupId ((a, b) :: rest) l =
        if a = l then some b else lookupId rest l from rfl] at h
    by_cases ha : a = l
    · rw [if_pos ha] at h
      cases h
    · rw [if_neg ha] at h ⊢
      exact ih h

theorem mem_firstSeenDedupAux (x : PyLabel) (y : List PyLabel) (seen : List PyLabel) :
    x ∈ firstSeenDedupAux seen y ↔ x ∈ y ∧ x ∉ seen := by
  induction y generalizing seen with
  | nil => simp [firstSeenDedupAux]
  | cons a rest ih =>
    unfold firstSeenDedupAux
    by_cases ha : a ∈ seen
    · rw [if_pos ha, ih seen]
      constructor
      · rintro ⟨hx, hs⟩
        exact ⟨List.mem_cons_of_mem a hx, hs⟩
      · rintro ⟨hx, hs⟩
        rcases List.mem_cons.mp hx with rfl | hm
        · exact absurd ha hs
        · exact ⟨hm, hs⟩
    · rw [if_neg ha]
      constructor
      · intro hx
        rcases List.mem_cons.mp hx with rfl | hm
        · exact ⟨List.mem_cons_self x rest, ha⟩
        · obtain ⟨h1, h2⟩ := (ih (a :: seen)).mp hm
          exact ⟨List.mem_cons_of_mem a h1, fun hs => h2 (List.mem_cons_of_mem a hs)⟩
      · rintro ⟨hx, hs⟩
        rcases List.mem_cons.mp hx with rfl | hm
        · exact List.mem_cons_self x _
        · by_cases hxa : x = a
          · subst hxa
            exact List.mem_cons_self x _
          · refine List.mem_cons_of_mem a ((ih (a :: seen)).mpr ⟨hm, ?_⟩)
            intro hmem
            rcases List.mem_cons.mp hmem with h1 | h2
            · exact hxa h1
            · exact hs h2

theorem mem_label_set (x : PyLabel) (y : List PyLabel) :
    x ∈ label_set y ↔ x ∈ y := by
  simp [label_set, mem_firstSeenDedupAux]

theorem label_set_nil_iff (y : List PyLabel) : label_set y = [] ↔ y = [] := by
  constructor
  · intro h
    cases y with
    | nil => rfl
    | cons a rest =>
      have : a ∈ label_set (a :: rest) := (mem_label_set a _).mpr (by simp)
      rw [h] at this
      cases this
  · rintro rfl
    rfl

theorem enumerateFrom_length (i : Nat) (ls : List PyLabel) :
    (enumerateFrom i ls).length = ls.length := by
  induction ls generalizing i with
  | nil => rfl
  | cons a rest ih => simp [enumerateFrom, ih]

theorem enumerateFrom_nil_iff (i : Nat) (ls : List PyLabel) :
    enumerateFrom i ls = [] ↔ ls = [] := by
  cases ls <;> simp [enumerateFrom]

theorem lookupId_enumerateFrom (i : Nat) (ls : List PyLabel) (l : PyLabel)
    (h : l ∈ ls) : (lookupId (enumerateFrom i ls) l).isSome = true := by
  induction ls generalizing i with
  | nil => cases h
  | cons a rest ih =>
    show (if a = l then some i else lookupId (enumerateFrom (i + 1) rest) l).isSome = true
    by_cases ha : a = l
    · simp [ha]
    · rw [if_neg ha]
      rcases List.mem_cons.mp h with rfl | hm
      · exact absurd rfl ha
      · exact ih (i + 1) hm

theorem vocabOrder_perm (l : List PyLabel) : (vocabOrder l).Perm l := by
  unfold vocabOrder pySorted
  by_cases h : sameTypeAll l = true
  · simp only [h, if_true]
    exact List.perm_insertionSort _ l
  · simp only [h]
    rw [if_neg (by simp [h])]

theorem mem_vocabOrder (x : PyLabel) (l : List PyLabel) :
    x ∈ vocabOrder l ↔ x ∈ l :=
  (vocabOrder_perm l).mem_iff

theorem vocabOrder_length (l : List PyLabel) :
    (vocabOrder l).length = l.length :=
  (vocabOrder_perm l).length_eq

theorem assignIds_all_found (sz : Nat) (y : List PyLabel)
    (m : List (PyLabel × Nat)) (itl : List PyLabel)
    (h : ∀ l ∈ y, (lookupId m l).isSome = true) :
    assignIds sz y m itl = .ok (y.map (fun l => (lookupId m l).getD 0), m, itl) := by
  induction y with
  | nil => rfl
  | cons l rest ih =>
    obtain ⟨i, hi⟩ := Option.isSome_iff_exists.mp (h l (by simp))
    unfold assignIds
    rw [hi, ih (fun t ht => h t (by simp [ht]))]
    simp [hi]

theorem assignIds_inv (sz : Nat) (y : List PyLabel) (m : List (PyLabel × Nat))
    (itl : List PyLabel) (ids : List Nat) (m' : List (PyLabel × Nat)) (itl' : List PyLabel)
    (h : assignIds sz y m itl = .ok (ids, m', itl')) :
    (∀ k v, lookupId m k = some v → lookupId m' k = some v) ∧
    (∀ l ∈ y, (lookupId m' l).isSome = true) ∧
    ids = y.map (fun l => (lookupId m' l).getD 0) ∧
    ∃ d, m'.length = m.length + d ∧ itl'.length = itl.length + d ∧
      (m.length ≤ sz → m'.length ≤ sz) := by
  induction y generalizing m itl ids with
  | nil =>
    cases h
    exact ⟨fun k v hv => hv, by simp, rfl, 0, rfl, rfl, fun hle => hle⟩
  | cons l rest ih =>
    unfold assignIds at h
    cases hl : lookupId m l with
    | some i =>
      rw [hl] at h
      cases hrec : assignIds sz rest m itl with
      | error e => rw [hrec] at h; cases h
      | ok p =>
        rw [hrec] at h
        obtain ⟨ids_r, m2, itl2⟩ := p
        simp only at h
        cases h
        obtain ⟨hext, hall, hids, d, hd1, hd2, hd3⟩ :=
          ih m itl ids_r hrec
        refine ⟨hext, ?_, ?_, d, hd1, hd2, hd3⟩
        · intro t ht
          rcases List.mem_cons.mp ht with rfl | hm
          · rw [hext t i hl]; rfl
          · exact hall t hm
        · rw [List.map_cons, ← hids, hext l i hl]
          rfl
    | none =>
      rw [hl] at h
      by_cases hg : m.length < sz
      · rw [if_pos hg] at h
        cases hrec : assignIds sz rest (m ++ [(l, m.length)]) (itl ++ [l]) with
        | error e => rw [hrec] at h; cases h
        | ok p =>
          rw [hrec] at h
          obtain ⟨ids_r, m2, itl2⟩ := p
          simp only at h
          cases h
          obtain ⟨hext, hall, hids, d, hd1, hd2, hd3⟩ :=
            ih (m ++ [(l, m.length)]) (itl ++ [l]) ids_r hrec
          have hself : lookupId m' l = some m.length :=
            hext l m.length (lookupId_append_self m l m.length hl)
          refine ⟨?_, ?_, ?_, d + 1, ?_, ?_, ?_⟩
          · intro k v hv
            exact hext k v (lookupId_append_left m _ k v hv)
          · intro t ht
            rcases List.mem_cons.mp ht with rfl | hm
            · rw [hself]; rfl
            · exact hall t hm
          · rw [List.map_cons, ← hids, hself]
            rfl
          · simp at hd1; omega
          · simp at hd2; omega
          · intro hle
            exact hd3 (by simp; omega)
      · rw [if_neg hg] at h
        cases h

theorem assignIds_err_of_full (sz : Nat) (y : List PyLabel) (m : List (PyLabel × Nat))
    (itl : List PyLabel) (hfull : sz ≤ m.length) (l : PyLabel) (hl : l ∈ y)
    (hnone : lookupId m l = none) :
    (assignIds sz y m itl).isOk = false := by
  induction y with
  | nil => cases hl
  | cons l0 rest ih =>
    unfold assignIds
    cases hl0 : lookupId m l0 with
    | some i =>
      have hne : l ∈ rest := by
        rcases List.mem_cons.mp hl with rfl | hm
        · rw [hl0] at hnone; cases hnone
        · exact hm
      cases hrec : assignIds sz rest m itl with
      | error e => rfl
      | ok p =>
        have := ih hne
        rw [hrec] at this
        cases this
    | none =>
      rw [if_neg (by omega)]
      rfl

theorem convert_y_eq (st : ClsState) (y : List PyLabel)
    (hc : ¬(truthySize st.label_size = true ∧
      st.label_size.getD 0 < (label_set y).length)) :
    convert_y st y =
      (match assignIds (convert_y_sz st (label_set y)) y
          (convert_y_m st (convert_y_itl st (label_set y)))
          (convert_y_itl st (label_set y)) with
       | .error e => .error e
       | .ok (ids, m', itl') =>
         .ok (ids, ⟨some (convert_y_sz st (label_set y)), itl', m'⟩)) := by
  simp only [convert_y]
  rw [if_neg hc]

theorem convert_y_err (st : ClsState) (y : List PyLabel)
    (hc : truthySize st.label_size = true ∧
      st.label_size.getD 0 < (label_set y).length) :
    convert_y st y = .error "Number of unique ys exceeds label_size." := by
  simp only [convert_y]
  rw [if_pos hc]

theorem lset_le_sz (st : ClsState) (y : List PyLabel)
    (hc : ¬(truthySize st.label_size = true ∧
      st.label_size.getD 0 < (label_set y).length)) :
    (label_set y).length ≤ convert_y_sz st (label_set y) := by
  unfold convert_y_sz
  cases htr : truthySize st.label_size with
  | true =>
    rw [if_pos rfl]
    by_cases hlt : st.label_size.getD 0 < (label_set y).length
    · exact absurd ⟨htr, hlt⟩ hc
    · omega
  | false =>
    rw [if_neg (by simp)]

theorem convert_y_itl_ne (st : ClsState) (lset : List PyLabel) (h : lset ≠ []) :
    convert_y_itl st lset ≠ [] := by
  unfold convert_y_itl
  by_cases hitl : st.id_to_label = []
  · rw [if_neg (by simpa using hitl)]
    intro hv
    exact h (by
      have := vocabOrder_length lset
      rw [hv] at this
      exact List.length_eq_zero.mp this.symm)
  · rw [if_pos hitl]
    exact hitl

theorem convert_y_m_ne (st : ClsState) (itl : List PyLabel) (h : itl ≠ []) :
    convert_y_m st itl ≠ [] := by
  unfold convert_y_m
  by_cases hmap : st.label_to_id = []
  · rw [if_neg (by simpa using hmap)]
    rw [Ne, enumerateFrom_nil_iff]
    exact h
  · rw [if_pos hmap]
    exact hmap

theorem convert_y_m_nil (st : ClsState) (itl : List PyLabel)
    (h : convert_y_m st itl = []) : itl = [] := by
  unfold convert_y_m at h
  by_cases hmap : st.label_to_id = []
  · rw [if_neg (by simpa using hmap)] at h
    exact (enumerateFrom_nil_iff 0 itl).mp h
  · rw [if_pos hmap] at h
    exact absurd h hmap

theorem vocabOrder_nil : vocabOrder [] = [] := rfl

theorem convert_y_m_length (st : ClsState) (y : List PyLabel) (hwf : VocabWF st)
    (hc : ¬(truthySize st.label_size = true ∧
      st.label_size.getD 0 < (label_set y).length)) :
    (convert_y_m st (convert_y_itl st (label_set y))).length ≤
      convert_y_sz st (label_set y) ∧
    (convert_y_m st (convert_y_itl st (label_set y))).length =
      (convert_y_itl st (label_set y)).length := by
  obtain ⟨hw1, hw2, hw3⟩ := hwf
  cases htr : truthySize st.label_size with
  | true =>
    have hsz : convert_y_sz st (label_set y) = st.label_size.getD 0 := by
      simp [convert_y_sz, htr]
    by_cases hmap : st.label_to_id = []
    · have hitl0 : st.id_to_label = [] := by
        refine List.length_eq_zero.mp ?_
        rw [← hw1, hmap]
        rfl
      have hitl : convert_y_itl st (label_set y) = vocabOrder (label_set y) := by
        simp [convert_y_itl, hitl0]
      have hm : convert_y_m st (convert_y_itl st (label_set y)) =
          enumerateFrom 0 (convert_y_itl st (label_set y)) := by
        simp [convert_y_m, hmap]
      rw [hsz, hm, enumerateFrom_length, hitl, vocabOrder_length]
      refine ⟨?_, rfl⟩
      by_cases hlt : st.label_size.getD 0 < (label_set y).length
      · exact absurd ⟨htr, hlt⟩ hc
      · omega
    · have hm : convert_y_m st (convert_y_itl st (label_set y)) = st.label_to_id := by
        simp [convert_y_m, hmap]
      have hitlne : st.id_to_label ≠ [] := by
        intro h0
        rw [h0] at hw1
        exact hmap (List.length_eq_zero.mp (by simpa using hw1))
      have hitl : convert_y_itl st (label_set y) = st.id_to_label := by
        simp [convert_y_itl, hitlne]
      rw [hsz, hm, hitl]
      exact ⟨hw2 htr, hw1⟩
  | false =>
    obtain ⟨hm0, hi0⟩ := hw3 htr
    have hsz : convert_y_sz st (label_set y) = (label_set y).length := by
      simp [convert_y_sz, htr]
    have hitl : convert_y_itl st (label_set y) = vocabOrder (label_set y) := by
      simp [convert_y_itl, hi0]
    have hm : convert_y_m st (convert_y_itl st (label_set y)) =
        enumerateFrom 0 (convert_y_itl st (label_set y)) := by
      simp [convert_y_m, hm0]
    rw [hsz, hm, enumerateFrom_length, hitl, vocabOrder_length]
    exact ⟨le_refl _, rfl⟩

theorem convert_y_post (sz : Nat) (y : List PyLabel) (m : List (PyLabel × Nat))
    (itl : List PyLabel) (hm : m.length ≤ sz) (hlen : m.length = itl.length)
    (ids : List Nat) (m' : List (PyLabel × Nat)) (itl' : List PyLabel)
    (h : assignIds sz y m itl = .ok (ids, m', itl')) :
    VocabWF ⟨some sz, itl', m'⟩ ∧ m'.length ≤ sz ∧ ids.length = y.length ∧
      ∀ l ∈ y, (lookupId m' l).isSome = true := by
  obtain ⟨hext, hall, hids, d, hd1, hd2, hd3⟩ := assignIds_inv sz y m itl ids m' itl' h
  have hm' : m'.length ≤ sz := hd3 hm
  refine ⟨⟨by simp only; omega, ?_, ?_⟩, hm', by rw [hids]; simp, hall⟩
  · intro _
    simpa using hm'
  · intro hfal
    have hsz0 : sz = 0 := by simpa [truthySize] using hfal
    simp only
    constructor
    · exact List.length_eq_zero.mp (by omega)
    · exact List.length_eq_zero.mp (by omega)

theorem convert_X_no_mutation_witness :
    heap_get (convert_X_heap ⟨4, 2, .LIFO⟩
      [[[1, 1], [2, 2], [3, 3], [4, 4], [5, 5]]] [0]).1 0 =
    [[1, 1], [2, 2], [3, 3], [4, 4], [5, 5]] := by
  have h := convert_X_no_mutation ⟨4, 2, .LIFO⟩
    [[[1, 1], [2, 2], [3, 3], [4, 4], [5, 5]]] [0] 0 (by decide)
  rw [h]
  rfl


theorem truthySize_some_pos (n : Nat) (h : 0 < n) : truthySize (some n) = true := by
  simp [truthySize]
  omega

theorem truthySize_getD_ne (o : Option Nat) (h : truthySize o = true) :
    o.getD 0 ≠ 0 := by
  cases o with
  | none => simp [truthySize] at h
  | some n => simpa [truthySize] using h

/-- `_convert_y` on an empty batch is the identity on any state of the form
the code produces (capacity already recorded; `_label_to_id` empty only when
`_id_to_label` is empty too). -/
theorem convert_y_nil_self (sz : Nat) (itl : List PyLabel) (m : List (PyLabel × Nat))
    (hstable : m = [] → itl = []) :
    convert_y ⟨some sz, itl, m⟩ [] = .ok ([], ⟨some sz, itl, m⟩) := by
  have hc2 : ¬(truthySize (some sz) = true ∧
      (some sz : Option Nat).getD 0 < (label_set ([] : List PyLabel)).length) := by
    rintro ⟨_, hlt⟩
    rw [show label_set ([] : List PyLabel) = [] from rfl] at hlt
    simp at hlt
  rw [convert_y_eq ⟨some sz, itl, m⟩ [] hc2]
  have hsz2 : convert_y_sz ⟨some sz, itl, m⟩ (label_set []) = sz := by
    rcases Nat.eq_zero_or_pos sz with h0 | hpos
    · rw [h0]
      rfl
    · simp [convert_y_sz, truthySize_some_pos sz hpos]
  have hitl2 : convert_y_itl ⟨some sz, itl, m⟩ (label_set []) = itl := by
    by_cases hit : itl = []
    · rw [hit]
      rfl
    · simp [convert_y_itl, hit]
  have hm2 : convert_y_m ⟨some sz, itl, m⟩ itl = m := by
    by_cases hmm : m = []
    · rw [hmm, hstable hmm]
      rfl
    · simp [convert_y_m, hmm]
  rw [hitl2, hm2, hsz2]
  rfl

/-- Re-encoding `y` from a post-call state whose map already covers every
label of `y` reproduces the same ids and leaves the state unchanged. -/
theorem convert_y_repeat (sz : Nat) (y : List PyLabel) (itl' : List PyLabel)
    (m' : List (PyLabel × Nat)) (ids : List Nat)
    (hzne : sz ≠ 0) (hitl'ne : itl' ≠ []) (hm'ne : m' ≠ [])
    (hle : (label_set y).length ≤ sz)
    (hall : ∀ l ∈ y, (lookupId m' l).isSome = true)
    (hids : ids = y.map (fun l => (lookupId m' l).getD 0)) :
    convert_y ⟨some sz, itl', m'⟩ y = .ok (ids, ⟨some sz, itl', m'⟩) := by
  have htr : truthySize (some sz) = true := truthySize_some_pos sz (by omega)
  have hc2 : ¬(truthySize (some sz) = true ∧
      (some sz : Option Nat).getD 0 < (label_set y).length) := by
    rintro ⟨_, hlt⟩
    simp at hlt
    omega
  rw [convert_y_eq ⟨some sz, itl', m'⟩ y hc2]
  have hsz2 : convert_y_sz ⟨some sz, itl', m'⟩ (label_set y) = sz := by
    simp [convert_y_sz, htr]
  have hitl2 : convert_y_itl ⟨some sz, itl', m'⟩ (label_set y) = itl' := by
    simp [convert_y_itl, hitl'ne]
  have hm2 : convert_y_m ⟨some sz, itl', m'⟩ itl' = m' := by
    simp [convert_y_m, hm'ne]
  rw [hitl2, hm2, hsz2, assignIds_all_found sz y m' itl' hall, ← hids]

theorem convert_y_enum_label_set (st : ClsState) (y : List PyLabel) :
    convert_y_enum (label_set y) st y = convert_y st y := rfl

theorem convert_y_enum_eq (e : List PyLabel) (st : ClsState) (y : List PyLabel)
    (hc : ¬(truthySize st.label_size = true ∧ st.label_size.getD 0 < e.length)) :
    convert_y_enum e st y =
      (match assignIds (convert_y_sz st e) y
          (convert_y_m st (convert_y_itl st e)) (convert_y_itl st e) with
       | .error err => .error err
       | .ok (ids, m', itl') =>
         .ok (ids, ⟨some (convert_y_sz st e), itl', m'⟩)) := by
  simp only [convert_y_enum]
  rw [if_neg hc]

/-- C4 counterexample: the claim's fallback clause (ids follow first-seen
insertion order when comparison fails) is not a property of the program.
Line 132 takes `list(label_set)` where `label_set = set(y)` (line 122), and
CPython guarantees only the membership and cardinality of a set, not its
iteration order (it is hash-based and run-randomized).  For the mixed-type
batch `[0, "a"]` (where `sorted` raises and the fallback applies), the two
enumerations `[0, "a"]` (first-seen) and `["a", 0]` — both permutations of
the distinct-label set, hence both permissible values of `list(set(y))` —
make the code return ids `[0, 1]` and `[1, 0]` respectively: the code does
not assign fallback ids by first-seen order; the ids depend on the set's
implementation-defined enumeration. -/
theorem set_order_fallback_counterexample :
    ([.str ['a'], .int 0] : List PyLabel).Perm
      (label_set [.int 0, .str ['a']]) ∧
    convert_y_enum (label_set [.int 0, .str ['a']]) ⟨none, [], []⟩
      [.int 0, .str ['a']] =
      .ok ([0, 1],
        ⟨some 2, [.int 0, .str ['a']], [(.int 0, 0), (.str ['a'], 1)]⟩) ∧
    convert_y_enum [.str ['a'], .int 0] ⟨none, [], []⟩ [.int 0, .str ['a']] =
      .ok ([1, 0],
        ⟨some 2, [.str ['a'], .int 0], [(.str ['a'], 0), (.int 0, 1)]⟩) ∧
    ([0, 1] : List Nat) ≠ [1, 0] := by
  refine ⟨by decide, rfl, rfl, by decide⟩

/-- C4 amended: on the first `_convert_y` call (no truthy preset capacity,
empty vocabulary), for EVERY enumeration `e` of the batch's distinct-label
set — any permutation of `label_set y`, since CPython's set iteration order
is implementation-defined — the vocabulary is built from the full distinct
set: ordered by Python `sorted` when the labels are mutually comparable and
falling back silently to the set's enumeration order `e` itself (not
necessarily first-seen order) when comparison fails; `label_size` becomes
the distinct count and each label gets the id of its position in that
vocabulary (`vocabOrder e`).  Instantiated at labels `["b","a","c"]` the
comparable branch applies and two different enumerations both give
vocabulary `a↦0, b↦1, c↦2` and ids `[1,0,2]` (see the witness). -/
theorem convert_y_first_call_set_order (e : List PyLabel) (st : ClsState)
    (y : List PyLabel) (hperm : e.Perm (label_set y))
    (h1 : truthySize st.label_size = false) (h2 : st.id_to_label = [])
    (h3 : st.label_to_id = []) :
    convert_y_enum e st y = .ok
      (y.map (fun l => (lookupId (enumerateFrom 0 (vocabOrder e)) l).getD 0),
       ⟨some e.length, vocabOrder e, enumerateFrom 0 (vocabOrder e)⟩) ∧
    e.length = (label_set y).length := by
  refine ⟨?_, hperm.length_eq⟩
  have hc : ¬(truthySize st.label_size = true ∧
      st.label_size.getD 0 < e.length) := by
    simp [h1]
  rw [convert_y_enum_eq e st y hc]
  have hsz : convert_y_sz st e = e.length := by
    simp [convert_y_sz, h1]
  have hitl : convert_y_itl st e = vocabOrder e := by
    simp [convert_y_itl, h2]
  have hm : convert_y_m st (vocabOrder e) =
      enumerateFrom 0 (vocabOrder e) := by
    simp [convert_y_m, h3]
  have hfound : ∀ l ∈ y,
      (lookupId (enumerateFrom 0 (vocabOrder e)) l).isSome = true := by
    intro l hl
    exact lookupId_enumerateFrom 0 _ l
      ((mem_vocabOrder l _).mpr (hperm.mem_iff.mpr ((mem_label_set l y).mpr hl)))
  rw [hitl, hm, hsz, assignIds_all_found _ _ _ _ hfound]

theorem convert_y_first_call_set_order_witness :
    convert_y_enum [.str ['b'], .str ['a'], .str ['c']] ⟨none, [], []⟩
      [.str ['b'], .str ['a'], .str ['c']] =
      .ok ([1, 0, 2],
        ⟨some 3, [.str ['a'], .str ['b'], .str ['c']],
         [(.str ['a'], 0), (.str ['b'], 1), (.str ['c'], 2)]⟩) ∧
    convert_y_enum [.str ['c'], .str ['a'], .str ['b']] ⟨none, [], []⟩
      [.str ['b'], .str ['a'], .str ['c']] =
      .ok ([1, 0, 2],
        ⟨some 3, [.str ['a'], .str ['b'], .str ['c']],
         [(.str ['a'], 0), (.str ['b'], 1), (.str ['c'], 2)]⟩) := by
  have h1 := convert_y_first_call_set_order [.str ['b'], .str ['a'], .str ['c']]
    ⟨none, [], []⟩ [.str ['b'], .str ['a'], .str ['c']] (by decide) rfl rfl rfl
  have h2 := convert_y_first_call_set_order [.str ['c'], .str ['a'], .str ['b']]
    ⟨none, [], []⟩ [.str ['b'], .str ['a'], .str ['c']] (by decide) rfl rfl rfl
  exact ⟨by rw [h1.1]; rfl, by rw [h2.1]; rfl⟩

/-- C5: `label_size` is never exceeded.  (1) If a truthy capacity `n` is
preset and the batch has more than `n` distinct labels, the call fails.
(2) On a later call (non-empty vocabulary already at or above a truthy
capacity `n`), meeting any unseen label fails the call.  (3) From a
well-formed state, every successful call returns one id per input label,
maps every label of the batch, keeps the state well-formed and keeps the
vocabulary size within the (now set) `label_size` — nothing is silently
dropped or truncated. -/
theorem vocab_capacity (st : ClsState) (y : List PyLabel) :
    (∀ n, st.label_size = some n → 0 < n → n < (label_set y).length →
      (convert_y st y).isOk = false) ∧
    (∀ n l, st.label_size = some n → 0 < n → st.label_to_id ≠ [] →
      n ≤ st.label_to_id.length → l ∈ y → lookupId st.label_to_id l = none →
      (convert_y st y).isOk = false) ∧
    (VocabWF st → ∀ ids st', convert_y st y = .ok (ids, st') →
      VocabWF st' ∧
      (∃ n, st'.label_size = some n ∧ st'.label_to_id.length ≤ n) ∧
      ids.length = y.length ∧
      ∀ l ∈ y, (lookupId st'.label_to_id l).isSome = true) := by
  refine ⟨?_, ?_, ?_⟩
  · intro n hn hpos hlt
    have htr : truthySize st.label_size = true := by
      rw [hn]
      exact truthySize_some_pos n hpos
    rw [convert_y_err st y ⟨htr, by rw [hn]; simpa using hlt⟩]
    rfl
  · intro n l hn hpos hmapne hfull hly hnone
    by_cases hc : truthySize st.label_size = true ∧
        st.label_size.getD 0 < (label_set y).length
    · rw [convert_y_err st y hc]
      rfl
    · rw [convert_y_eq st y hc]
      have hm : convert_y_m st (convert_y_itl st (label_set y)) = st.label_to_id := by
        simp [convert_y_m, hmapne]
      have hszn : convert_y_sz st (label_set y) = n := by
        have htr2 : truthySize (some n) = true := truthySize_some_pos n hpos
        simp [convert_y_sz, hn, htr2]
      have herr := assignIds_err_of_full (convert_y_sz st (label_set y)) y
        st.label_to_id (convert_y_itl st (label_set y))
        (by omega) l hly hnone
      rw [hm]
      cases hres : assignIds (convert_y_sz st (label_set y)) y st.label_to_id
          (convert_y_itl st (label_set y)) with
      | error e => rfl
      | ok p =>
        rw [hres] at herr
        exact absurd herr (by simp [Except.isOk, Except.toBool])
  · intro hwf ids st' hok
    by_cases hc : truthySize st.label_size = true ∧
        st.label_size.getD 0 < (label_set y).length
    · rw [convert_y_err st y hc] at hok
      cases hok
    · rw [convert_y_eq st y hc] at hok
      obtain ⟨hmle, hmlen⟩ := convert_y_m_length st y hwf hc
      cases hres : assignIds (convert_y_sz st (label_set y)) y
          (convert_y_m st (convert_y_itl st (label_set y)))
          (convert_y_itl st (label_set y)) with
      | error e => rw [hres] at hok; cases hok
      | ok p =>
        obtain ⟨ids0, m', itl'⟩ := p
        rw [hres] at hok
        simp only at hok
        cases hok
        obtain ⟨hwf', hm', hlen', hall⟩ :=
          convert_y_post _ y _ _ hmle hmlen ids m' itl' hres
        exact ⟨hwf', ⟨convert_y_sz st (label_set y), rfl, hm'⟩, hlen', hall⟩

theorem vocab_capacity_witness :
    (convert_y ⟨some 1, [.str ['a']], [(.str ['a'], 0)]⟩
      [.str ['b'], .str ['c']]).isOk = false := by
  exact (vocab_capacity ⟨some 1, [.str ['a']], [(.str ['a'], 0)]⟩
    [.str ['b'], .str ['c']]).1 1 rfl (by decide) (by decide)

/-- C8: label encoding is deterministic and stable.  A successful
`_convert_y` call is idempotent: repeating it with the same label sequence
from the resulting vocabulary state yields the identical id list and the
identical state (and on any fixed state the model is a function, so the
same call twice from the same state trivially agrees).  Moreover an id once
assigned is never reassigned: every `label ↦ id` binding present before the
call is still present, unchanged, after it. -/
theorem label_encoding_stable (st : ClsState) (y : List PyLabel)
    (ids : List Nat) (st' : ClsState) (h : convert_y st y = .ok (ids, st')) :
    convert_y st' y = .ok (ids, st') ∧
    ∀ l i, lookupId st.label_to_id l = some i →
      lookupId st'.label_to_id l = some i := by
  by_cases hc : truthySize st.label_size = true ∧
      st.label_size.getD 0 < (label_set y).length
  · rw [convert_y_err st y hc] at h
    cases h
  · rw [convert_y_eq st y hc] at h
    cases hres : assignIds (convert_y_sz st (label_set y)) y
        (convert_y_m st (convert_y_itl st (label_set y)))
        (convert_y_itl st (label_set y)) with
    | error e => rw [hres] at h; cases h
    | ok p =>
      obtain ⟨ids0, m', itl'⟩ := p
      rw [hres] at h
      simp only at h
      cases h
      obtain ⟨hext, hall, hids, d, hd1, hd2, hd3⟩ :=
        assignIds_inv _ y _ _ ids m' itl' hres
      refine ⟨?_, ?_⟩
      · cases y with
        | nil =>
          rw [show assignIds (convert_y_sz st (label_set []))
              [] (convert_y_m st (convert_y_itl st (label_set [])))
              (convert_y_itl st (label_set [])) =
              .ok ([], convert_y_m st (convert_y_itl st (label_set [])),
                convert_y_itl st (label_set [])) from rfl] at hres
          cases hres
          exact convert_y_nil_self _ _ _ (fun hm0 => convert_y_m_nil st _ hm0)
        | cons l0 rest =>
          have hlne : label_set (l0 :: rest) ≠ [] := by
            rw [Ne, label_set_nil_iff]
            simp
          have hitlne : convert_y_itl st (label_set (l0 :: rest)) ≠ [] :=
            convert_y_itl_ne st _ hlne
          have hmne : convert_y_m st (convert_y_itl st (label_set (l0 :: rest))) ≠ [] :=
            convert_y_m_ne st _ hitlne
          have hm'ne : m' ≠ [] := by
            rw [← List.length_pos] at hmne ⊢
            omega
          have hitl'ne : itl' ≠ [] := by
            have := List.length_pos.mpr hitlne
            rw [← List.length_pos]
            omega
          have hszne : convert_y_sz st (label_set (l0 :: rest)) ≠ 0 := by
            unfold convert_y_sz
            cases htr : truthySize st.label_size with
            | true =>
              rw [if_pos rfl]
              exact truthySize_getD_ne _ htr
            | false =>
              rw [if_neg (by simp)]
              intro h0
              exact hlne (List.length_eq_zero.mp h0)
          exact convert_y_repeat _ (l0 :: rest) itl' m' ids hszne hitl'ne hm'ne
            (lset_le_sz st (l0 :: rest) hc) hall hids
      · intro l i hl
        have hmapne : st.label_to_id ≠ [] := by
          intro h0
          rw [h0] at hl
          cases hl
        have hm : convert_y_m st (convert_y_itl st (label_set y)) = st.label_to_id := by
          simp [convert_y_m, hmapne]
        exact hext l i (by rwa [hm])

theorem label_encoding_stable_witness :
    convert_y ⟨some 3, [.str ['a'], .str ['b']], [(.str ['a'], 0), (.str ['b'], 1)]⟩
      [.str ['b']] =
      .ok ([1], ⟨some 3, [.str ['a'], .str ['b']],
        [(.str ['a'], 0), (.str ['b'], 1)]⟩) ∧
    lookupId [(.str ['a'], 0), (.str ['b'], 1)] (.str ['a']) = some 0 := by
  have h := label_encoding_stable ⟨some 3, [.str ['a']], [(.str ['a'], 0)]⟩
    [.str ['b']] [1]
    ⟨some 3, [.str ['a'], .str ['b']], [(.str ['a'], 0), (.str ['b'], 1)]⟩ (by decide)
  exact ⟨h.1, h.2 (.str ['a']) 0 (by decide)⟩

end StockBert
